import Mathlib

/-!
Verification of the caching-workshop repository's caching layer.

Shallow embedding of:
* `app/models/products.py` — the in-process `_cache` read paths
  (`get_products`, `get_product_by_id`), `update_product`'s Redis
  invalidation, and `get_with_stampede_protection`;
* `app/utils/redis_cache.py` — the `redis_cache` decorator's cache-key
  encoding `f"{key_prefix}:{str(args)}:{str(kwargs)}"`;
* `app/utils/calculator.py` — `fibonacci_uncached` / `fibonacci_cached`.

Conventions of the embedding:
* Wall-clock time is a `Nat` (seconds for the in-process cache, deciseconds
  for the stampede loop, whose `time.sleep(0.1)` advances time by one unit).
* The Redis client's lazily-expiring keyspace is an association list of
  entries carrying an optional absolute expiry; `get` treats dead entries
  as absent, as Redis does.
* `json.dumps`/`json.loads` round-trip payloads unchanged, so serialized
  values are modelled as the payloads themselves.
* Python strings are modelled as `List Char`; modelled string payloads
  cover printable characters (Python `repr` escapes of control characters
  are outside the model and excluded by hypotheses where relevant).
-/

/-! ## In-process cache (`_cache` in products.py)

Entries are `{'data': ..., 'timestamp': ...}` dictionaries keyed by strings.
The cached payload is opaque to the caching logic and modelled as `String`.
-/

structure InEntry where
  data : String
  timestamp : Nat
deriving DecidableEq, Repr

/-- The module-level `_cache` dictionary. -/
abbrev InCache := List (String × InEntry)

def lookupIn (c : InCache) (k : String) : Option InEntry :=
  (c.find? (fun p => p.1 = k)).map (fun p => p.2)

def insertIn (c : InCache) (k : String) (e : InEntry) : InCache :=
  (k, e) :: c.filter (fun p => ¬ p.1 = k)

/-- Cache key `f'products_page_{page}_per_page_{per_page}'` of `get_products`. -/
def productsKey (page perPage : Nat) : String :=
  "products_page_" ++ toString page ++ "_per_page_" ++ toString perPage

/-- Cache key `f'product_{product_id}'` of `get_product_by_id`. -/
def productKey (pid : Nat) : String :=
  "product_" ++ toString pid

/-- Result of one in-process read: the returned value, the cache afterwards,
and whether the database was queried on this call. -/
structure GetOutcome where
  result : Option String
  cache : InCache
  dbQueried : Bool
deriving DecidableEq, Repr

/-- `get_products(page, per_page, use_cache)` (products.py lines 8-63).
`db page perPage` stands for the SELECT + COUNT result assembled into the
returned dictionary; the list query always produces a value. The cached
entry is served only when `time.time() - entry['timestamp'] < 30`. -/
def getProducts (db : Nat → Nat → String) (cache : InCache) (now : Nat)
    (page perPage : Nat) (useCache : Bool) : GetOutcome :=
  let key := productsKey page perPage
  let fresh : GetOutcome :=
    let r := db page perPage
    { result := some r
      cache := if useCache then insertIn cache key ⟨r, now⟩ else cache
      dbQueried := true }
  match (if useCache then lookupIn cache key else none) with
  | some e => if now - e.timestamp < 30 then ⟨some e.data, cache, false⟩ else fresh
  | none => fresh

/-- `get_product_by_id(product_id, use_cache)` (products.py lines 65-112).
`db pid` is the `SELECT * FROM products WHERE id = ?` row; when it is
`none` the function returns `None` before any cache write. The cached
entry is served only when `time.time() - entry['timestamp'] < 60`. -/
def getProductById (db : Nat → Option String) (cache : InCache) (now : Nat)
    (pid : Nat) (useCache : Bool) : GetOutcome :=
  let key := productKey pid
  let fresh : GetOutcome :=
    match db pid with
    | none => { result := none, cache := cache, dbQueried := true }
    | some p =>
      { result := some p
        cache := if useCache then insertIn cache key ⟨p, now⟩ else cache
        dbQueried := true }
  match (if useCache then lookupIn cache key else none) with
  | some e => if now - e.timestamp < 60 then ⟨some e.data, cache, false⟩ else fresh
  | none => fresh

/-! ## Redis-backed store

Models the subset of the Redis client used by products.py: `get`, `setnx`,
`expire`, `setex`, `delete`, and `keys`+`delete` on a pattern. Keys expire
lazily: a read at time `now` treats an entry whose expiry has passed as
absent, exactly as a Redis read does. `SETNX` stores a key with no expiry.
-/

structure RedisEntry where
  value : String
  expiresAt : Option Nat
deriving DecidableEq, Repr

def RedisEntry.live (e : RedisEntry) (now : Nat) : Bool :=
  match e.expiresAt with
  | none => true
  | some t => now < t

structure RedisStore where
  entries : List (String × RedisEntry)
deriving DecidableEq, Repr

def RedisStore.empty : RedisStore := ⟨[]⟩

def RedisStore.lookup (r : RedisStore) (k : String) : Option RedisEntry :=
  (r.entries.find? (fun p => p.1 = k)).map (fun p => p.2)

/-- `redis.get(k)`: absent covers both never-written and expired. -/
def RedisStore.get (r : RedisStore) (now : Nat) (k : String) : Option String :=
  match r.lookup k with
  | some e => if e.live now then some e.value else none
  | none => none

def RedisStore.setKey (r : RedisStore) (k : String) (e : RedisEntry) : RedisStore :=
  ⟨(k, e) :: r.entries.filter (fun p => ¬ p.1 = k)⟩

/-- `redis.setnx(k, v)`: stores `v` with NO expiry iff no live value exists;
returns whether it stored. -/
def RedisStore.setnx (r : RedisStore) (now : Nat) (k v : String) : Bool × RedisStore :=
  match r.get now k with
  | some _ => (false, r)
  | none => (true, r.setKey k ⟨v, none⟩)

/-- `redis.expire(k, ttl)`: attaches an expiry to an existing live key. -/
def RedisStore.expireKey (r : RedisStore) (now : Nat) (k : String) (ttl : Nat) : RedisStore :=
  match r.get now k with
  | some v => r.setKey k ⟨v, some (now + ttl)⟩
  | none => r

/-- `redis.setex(k, ttl, v)`: stores `v` expiring at `now + ttl`. -/
def RedisStore.setex (r : RedisStore) (now : Nat) (k : String) (ttl : Nat) (v : String) :
    RedisStore :=
  r.setKey k ⟨v, some (now + ttl)⟩

/-- `redis.delete(k)`: idempotent point delete. -/
def RedisStore.delKey (r : RedisStore) (k : String) : RedisStore :=
  ⟨r.entries.filter (fun p => ¬ p.1 = k)⟩

/-- `redis.keys(pref + "*")` followed by `redis.delete(*keys)`. -/
def RedisStore.delKeysWithPref (r : RedisStore) (pref : String) : RedisStore :=
  ⟨r.entries.filter (fun p => ¬ pref.isPrefixOf p.1)⟩

/-! ## Stampede protection (products.py lines 139-165) -/

/-- The advisory lock key `f"{key}:lock"`. -/
def lockKeyOf (key : String) : String := key ++ ":lock"

/-- `get_with_stampede_protection(key, ttl, fallback_function, lock_timeout)`.

Time is in deciseconds (`time.sleep(0.1)` advances `now` by 1); `ttl` and
`lockTimeout` are likewise deciseconds. The producer is `Except`-valued: a
Python exception inside `fallback_function()` is `Except.error`. `fuel`
bounds the number of recursive activations the embedding can unfold:
`none` means the call has not terminated within `fuel` activations — the
source recursion at line 165 carries no bound of its own. -/
def getWithStampedeProtection (producer : Except String String) (key : String)
    (ttl lockTimeout : Nat) :
    Nat → RedisStore → Nat → Option (Except String String × RedisStore × Nat)
  | 0, _, _ => none
  | fuel + 1, r, now =>
    match r.get now key with
    | some v => some (.ok v, r, now)
    | none =>
      let acq := r.setnx now (lockKeyOf key) "locked"
      if acq.1 then
        let r2 := acq.2.expireKey now (lockKeyOf key) lockTimeout
        match producer with
        | .ok fresh => some (.ok fresh, (r2.setex now key ttl fresh).delKey (lockKeyOf key), now)
        | .error e => some (.error e, r2.delKey (lockKeyOf key), now)
      else
        getWithStampedeProtection producer key ttl lockTimeout fuel acq.2 (now + 1)

/-- `update_product(product_id, ...)` (products.py lines 192-228), restricted
to its caching-relevant effect: when at least one field update is supplied
it commits the UPDATE (modelled by `newDb`), then deletes the Redis key
`product_{id}` and every Redis key matching `products_list:*`; with no
updates it returns `False` having touched nothing. The in-process `_cache`
is never touched. -/
def updateProduct (db : Nat → Option String) (redis : RedisStore) (pid : Nat)
    (newVal : Option String) : (Nat → Option String) × RedisStore × Bool :=
  match newVal with
  | none => (db, redis, false)
  | some v =>
    let db2 : Nat → Option String := fun i => if i = pid then some v else db i
    ((db2, ((redis.delKey (productKey pid)).delKeysWithPref "products_list:", true)))

/-! ## Fibonacci (calculator.py) -/

/-- `fibonacci_uncached(n)`: `n` if `n <= 1`, else the sum of the two
recursive calls. -/
def fibonacci_uncached : Nat → Nat
  | 0 => 0
  | 1 => 1
  | n + 2 => fibonacci_uncached (n + 1) + fibonacci_uncached n

/-- The `lru_cache` memo table: key/value pairs of arguments and results. -/
abbrev Memo := List (Nat × Nat)

def memoFind (t : Memo) (n : Nat) : Option Nat :=
  (t.find? (fun p => p.1 = n)).map (fun p => p.2)

/-- `fibonacci_cached(n)` under `@lru_cache(maxsize=128)`: look the argument
up in the memo table; on a miss run the same body as the uncached version,
threading the table through the recursive calls, then record the result.
`evict` is the table-bounding policy applied after each insertion
(`lru_cache`'s maxsize eviction); correctness is proved for every policy
that only drops entries. -/
def fibCachedCore (evict : Memo → Memo) : Nat → Memo → Nat × Memo
  | 0, t =>
    match memoFind t 0 with
    | some v => (v, t)
    | none => (0, evict ((0, 0) :: t))
  | 1, t =>
    match memoFind t 1 with
    | some v => (v, t)
    | none => (1, evict ((1, 1) :: t))
  | m + 2, t =>
    match memoFind t (m + 2) with
    | some v => (v, t)
    | none =>
      let a := fibCachedCore evict (m + 1) t
      let b := fibCachedCore evict m a.2
      (a.1 + b.1, evict ((m + 2, a.1 + b.1) :: b.2))

/-- `fibonacci_cached(n)` started from the empty memo table, with the
128-entry bound of `lru_cache(maxsize=128)`. -/
def fibonacci_cached (n : Nat) : Nat :=
  (fibCachedCore (fun t => t.take 128) n []).1

/-! ## Memoization correctness (claim C9) -/

/-- Every entry of the memo table records a true Fibonacci value. -/
def MemoGood (t : Memo) : Prop := ∀ p ∈ t, p.2 = fibonacci_uncached p.1

theorem memoFind_good {t : Memo} {n v : Nat} (ht : MemoGood t)
    (h : memoFind t n = some v) : v = fibonacci_uncached n := by
  unfold memoFind at h
  cases hf : t.find? (fun p => p.1 = n) with
  | none => simp [hf] at h
  | some p =>
    simp only [hf, Option.map_some', Option.some.injEq] at h
    have hmem : p ∈ t := List.mem_of_find?_eq_some hf
    have hkey : p.1 = n := by
      have := List.find?_some hf
      exact of_decide_eq_true this
    subst h; rw [← hkey]; exact ht p hmem

theorem memoGood_cons {t : Memo} {k : Nat} (ht : MemoGood t) :
    MemoGood ((k, fibonacci_uncached k) :: t) := by
  intro p hp
  rcases List.mem_cons.mp hp with h | h
  · subst h; rfl
  · exact ht p h

theorem fibCachedCore_correct (evict : Memo → Memo)
    (hev : ∀ t, MemoGood t → MemoGood (evict t)) :
    ∀ n t, MemoGood t →
      (fibCachedCore evict n t).1 = fibonacci_uncached n ∧
      MemoGood (fibCachedCore evict n t).2 := by
  intro n
  induction n using Nat.strong_induction_on with
  | _ n ih =>
    intro t ht
    match n with
    | 0 =>
      rw [fibCachedCore]
      cases hf : memoFind t 0 with
      | some v => simpa using ⟨memoFind_good ht hf, ht⟩
      | none => exact ⟨rfl, hev _ (memoGood_cons (k := 0) ht)⟩
    | 1 =>
      rw [fibCachedCore]
      cases hf : memoFind t 1 with
      | some v => simpa using ⟨memoFind_good ht hf, ht⟩
      | none => exact ⟨rfl, hev _ (memoGood_cons (k := 1) ht)⟩
    | m + 2 =>
      rw [fibCachedCore]
      cases hf : memoFind t (m + 2) with
      | some v => simpa using ⟨memoFind_good ht hf, ht⟩
      | none =>
        have ha := ih (m + 1) (by omega) t ht
        have hb := ih m (by omega) _ ha.2
        simp only
        constructor
        · rw [fibonacci_uncached, ha.1, hb.1]
        · apply hev
          have h2 : fibonacci_uncached (m + 1) + fibonacci_uncached m
              = fibonacci_uncached (m + 2) := rfl
          rw [ha.1, hb.1, h2]
          exact memoGood_cons hb.2

/-- C9: the `lru_cache`-memoized `fibonacci_cached` computes exactly the same
value as the naive doubly-recursive `fibonacci_uncached`, for every `n`. -/
theorem fibonacci_cached_eq_uncached (n : Nat) :
    fibonacci_cached n = fibonacci_uncached n := by
  have hev : ∀ t, MemoGood t → MemoGood (List.take 128 t) := by
    intro t ht p hp
    exact ht p (List.take_subset _ _ hp)
  exact (fibCachedCore_correct (fun t => t.take 128) hev n [] (by intro p hp; cases hp)).1

/-! ## Association-list helper lemmas -/

theorem find?_filter_of_imp {α : Type} (p q : α → Bool) (l : List α)
    (h : ∀ x, p x = true → q x = true) :
    List.find? p (l.filter q) = List.find? p l := by
  induction l with
  | nil => rfl
  | cons a l ih =>
    cases hq : q a with
    | true =>
      rw [List.filter_cons_of_pos hq]
      cases hp : p a with
      | true => simp [List.find?_cons, hp]
      | false => simp only [List.find?_cons, hp]; exact ih
    | false =>
      rw [List.filter_cons_of_neg (by simp [hq])]
      cases hp : p a with
      | true => exact absurd (h a hp) (by simp [hq])
      | false => simp only [List.find?_cons, hp]; exact ih

theorem find?_filter_none {α : Type} (p q : α → Bool) (l : List α)
    (h : List.find? p l = none) :
    List.find? p (l.filter q) = none := by
  rw [List.find?_eq_none] at h ⊢
  intro x hx
  exact h x (List.mem_of_mem_filter hx)

/-! ## Claim C7: in-process TTL behavior of `get_products` -/

/-- C7 (counterexample): an entry stored at time 0 and read 2 seconds later —
the instance the claim asserts is absent under `ttl = 1` — is returned as a
cache hit by `get_products`, with no database query: the in-process cache
has no per-entry ttl at all, only the hardcoded 30-second window. -/
theorem getProducts_hit_two_seconds_after_store :
    getProducts (fun _ _ => "fresh") [(productsKey 1 10, ⟨"cached", 0⟩)] 2 1 10 true
      = ⟨some "cached", [(productsKey 1 10, ⟨"cached", 0⟩)], false⟩ := by
  decide

/-- C7 (amended): the in-process cache applies the fixed 30-second window of
`get_products` — with an entry present, the call is served from cache
(no database query, cached data returned) exactly when fewer than 30
seconds have elapsed since the entry's stored timestamp. -/
theorem getProducts_fixed_thirty_second_window
    (db : Nat → Nat → String) (cache : InCache) (now page perPage : Nat) (e : InEntry)
    (he : lookupIn cache (productsKey page perPage) = some e) :
    ((getProducts db cache now page perPage true).dbQueried = false ∧
     (getProducts db cache now page perPage true).result = some e.data)
      ↔ now - e.timestamp < 30 := by
  unfold getProducts
  simp only [if_pos rfl, he]
  by_cases h : now - e.timestamp < 30
  · simp [h]
  · simp [h]

/-- C7 witness: the amended theorem applied to a concrete cache holding an
entry stored at time 0 and read at time 2. -/
theorem getProducts_fixed_thirty_second_window_witness :
    ((getProducts (fun _ _ => "fresh") [(productsKey 1 10, ⟨"x", 0⟩)] 2 1 10 true).dbQueried = false ∧
     (getProducts (fun _ _ => "fresh") [(productsKey 1 10, ⟨"x", 0⟩)] 2 1 10 true).result = some "x")
      ↔ 2 - 0 < 30 :=
  getProducts_fixed_thirty_second_window (fun _ _ => "fresh") _ 2 1 10 ⟨"x", 0⟩ (by decide)

/-! ## Claim C10: `get_product_by_id` on a missing database row -/

/-- C10 (counterexample): with no matching row in the database but a still-valid
in-process cache entry for the id (stored while the row existed), the call
returns the cached payload, not `None` — the "returns None" part of the claim
does not hold on the cache-hit path. -/
theorem getProductById_missing_row_but_cached :
    (getProductById (fun _ => none) [(productKey 7, ⟨"ghost", 0⟩)] 5 7 true).result
        = some "ghost" ∧
    (fun _ => (none : Option String)) 7 = none := by
  exact ⟨by decide, rfl⟩

/-- C10 (amended): whenever the read actually reaches the database — with
`use_cache=False` (even if a live cached entry exists for the id), or with
`use_cache=True` when no unexpired entry is present (entry absent or
expired) — a missing row yields `None` and writes nothing to the in-process
cache: absence is never cached as a negative result. -/
theorem getProductById_none_not_cached
    (db : Nat → Option String) (cache : InCache) (now pid : Nat) (useCache : Bool)
    (hmiss : useCache = false ∨
      ∀ e, lookupIn cache (productKey pid) = some e → 60 ≤ now - e.timestamp)
    (hdb : db pid = none) :
    getProductById db cache now pid useCache = ⟨none, cache, true⟩ := by
  unfold getProductById
  cases useCache with
  | false => simp [hdb]
  | true =>
    cases he : lookupIn cache (productKey pid) with
    | none => simp [he, hdb]
    | some e =>
      rcases hmiss with h | hmiss
      · cases h
      · have h60 := hmiss e he
        simp [he, hdb, Nat.not_lt.mpr h60]

/-- C10 witness: the amended theorem applied with `use_cache=False` while a
still-live cached entry exists for the id and the table has no row — the
call reaches the database and returns `None`, leaving the cache unchanged. -/
theorem getProductById_none_not_cached_witness :
    getProductById (fun _ => none) [(productKey 7, ⟨"ghost", 0⟩)] 3 7 false
      = ⟨none, [(productKey 7, ⟨"ghost", 0⟩)], true⟩ :=
  getProductById_none_not_cached (fun _ => none) [(productKey 7, ⟨"ghost", 0⟩)] 3 7 false
    (Or.inl rfl) rfl

/-! ## Claim C5: `update_product` invalidation vs the in-process read path -/

/-- C5 (counterexample): product 1 is read through the cached path (priming the
in-process cache), then `update_product` commits a new value and performs its
Redis invalidation; the very next `get_product_by_id(1, use_cache=True)` is a
cache **hit** — the database is not re-queried and the pre-update payload is
returned, because `update_product` deletes Redis keys while the read path
uses the separate in-process `_cache`. -/
theorem updateProduct_then_read_is_hit :
    (let db0 : Nat → Option String := fun i => if i = 1 then some "old" else none
     let o1 := getProductById db0 [] 0 1 true
     let u := updateProduct db0 RedisStore.empty 1 (some "new")
     let o2 := getProductById u.1 o1.cache 10 1 true
     u.2.2 = true ∧ o2.dbQueried = false ∧ o2.result = some "old") := by
  exact ⟨rfl, by decide, by decide⟩

/-- C5 (amended): `update_product` deletes the Redis entity key (and the Redis
`products_list:*` keys) but leaves the in-process `_cache` untouched, so a
subsequent `get_product_by_id` with `use_cache=True` within the 60-second
window is served from the in-process cache without re-executing the database
query; only the Redis-backed read paths observe the invalidation. -/
theorem updateProduct_invalidates_redis_only
    (db : Nat → Option String) (redis : RedisStore) (pid : Nat) (v : String)
    (cache : InCache) (e : InEntry) (now t : Nat)
    (he : lookupIn cache (productKey pid) = some e)
    (hts : now - e.timestamp < 60) :
    (updateProduct db redis pid (some v)).2.2 = true ∧
    ((updateProduct db redis pid (some v)).2.1).get t (productKey pid) = none ∧
    getProductById (updateProduct db redis pid (some v)).1 cache now pid true
      = ⟨some e.data, cache, false⟩ := by
  refine ⟨rfl, ?_, ?_⟩
  · show (((redis.delKey (productKey pid)).delKeysWithPref "products_list:").get
        t (productKey pid)) = none
    unfold RedisStore.get RedisStore.lookup RedisStore.delKeysWithPref RedisStore.delKey
    have h1 : List.find? (fun p => p.1 = productKey pid)
        ((redis.entries.filter (fun p => ¬ p.1 = productKey pid)).filter
          (fun p => ¬ ("products_list:".isPrefixOf p.1))) = none := by
      apply find?_filter_none
      rw [List.find?_eq_none]
      intro x hx hpx
      rcases List.mem_filter.mp hx with ⟨_, hq⟩
      simp only [decide_eq_true_eq] at hpx hq
      exact hq hpx
    simp only [h1, Option.map_none']
  · unfold getProductById
    simp [he, hts]

/-- C5 witness: the amended theorem applied to a primed one-entry cache and a
store holding the product's Redis key. -/
theorem updateProduct_invalidates_redis_only_witness :
    (updateProduct (fun _ => some "old") ⟨[(productKey 1, ⟨"old", none⟩)]⟩ 1
        (some "new")).2.2 = true ∧
    ((updateProduct (fun _ => some "old") ⟨[(productKey 1, ⟨"old", none⟩)]⟩ 1
        (some "new")).2.1).get 99 (productKey 1) = none ∧
    getProductById (updateProduct (fun _ => some "old")
        ⟨[(productKey 1, ⟨"old", none⟩)]⟩ 1 (some "new")).1
        [(productKey 1, ⟨"old", 0⟩)] 10 1 true
      = ⟨some "old", [(productKey 1, ⟨"old", 0⟩)], false⟩ :=
  updateProduct_invalidates_redis_only (fun _ => some "old") _ 1 "new"
    [(productKey 1, ⟨"old", 0⟩)] ⟨"old", 0⟩ 10 99 (by decide) (by decide)

/-! ## Claim C2: the lock-wait retry of `get_with_stampede_protection` -/

/-- When the cached value never appears and the lock key is held with no
expiry (the state a holder leaves behind if it stops between `setnx` and
`expire`), every activation of the wait loop misses, fails the `setnx`,
sleeps, and recurses with unchanged store state: no amount of fuel makes
the call terminate, and no timeout error exists to be returned. -/
theorem stampedeWait_spins_forever (producer : Except String String)
    (key : String) (ttl lt : Nat) (r : RedisStore) (w : String)
    (hval : r.lookup key = none)
    (hlock : r.lookup (lockKeyOf key) = some ⟨w, none⟩) :
    ∀ fuel now, getWithStampedeProtection producer key ttl lt fuel r now = none := by
  intro fuel
  induction fuel with
  | zero => intro now; rfl
  | succ f ih =>
    intro now
    rw [getWithStampedeProtection]
    have hg : r.get now key = none := by
      unfold RedisStore.get; rw [hval]
    have hl : r.get now (lockKeyOf key) = some w := by
      unfold RedisStore.get; rw [hlock]; rfl
    rw [hg]
    have hnx : r.setnx now (lockKeyOf key) "locked" = (false, r) := by
      unfold RedisStore.setnx; rw [hl]
    rw [hnx]
    exact ih (now + 1)

/-- C2 (counterexample): with the value key absent and the lock key held with
no expiry, a million activations of the lock-wait retry still have not
terminated — the claimed retry bound and timeout error do not exist in the
code, which sleeps 0.1 s and recurses with identical arguments. -/
theorem stampedeWait_million_retries_no_timeout :
    getWithStampedeProtection (.ok "v") "k" 300 50 1000000
      ⟨[("k:lock", ⟨"locked", none⟩)]⟩ 0 = none :=
  stampedeWait_spins_forever (.ok "v") "k" 300 50 _ "locked" (by decide) (by decide)
    1000000 0

/-- C2 (amended): the lock-wait retry of `get_with_stampede_protection` is
unbounded — whenever the lock holder never completes (value key absent, lock
key present without expiry), the call recurses forever: for every number of
activations it has produced no result, and in particular no timeout error. -/
theorem stampedeWait_unbounded (producer : Except String String)
    (key : String) (ttl lt : Nat) (r : RedisStore) (w : String)
    (hval : r.lookup key = none)
    (hlock : r.lookup (lockKeyOf key) = some ⟨w, none⟩) :
    ∀ fuel now, getWithStampedeProtection producer key ttl lt fuel r now = none :=
  stampedeWait_spins_forever producer key ttl lt r w hval hlock

/-- C2 witness: the amended theorem applied to a concrete held-lock store,
read out at fuel 7. -/
theorem stampedeWait_unbounded_witness :
    getWithStampedeProtection (.ok "payload") "key7" 300 50 7
      ⟨[("key7:lock", ⟨"locked", none⟩)]⟩ 0 = none :=
  stampedeWait_unbounded (.ok "payload") "key7" 300 50 _ "locked" (by decide) (by decide)
    7 0

/-! ## Claim C3: producer failure under the acquired lock -/

theorem key_ne_lockKeyOf (key : String) : key ≠ lockKeyOf key := by
  intro h
  have hl := congrArg String.length h
  rw [lockKeyOf, String.length_append] at hl
  have h5 : (":lock").length = 5 := rfl
  omega

theorem lookup_setKey_self (r : RedisStore) (k : String) (e : RedisEntry) :
    (r.setKey k e).lookup k = some e := by
  unfold RedisStore.lookup RedisStore.setKey
  simp

theorem lookup_setKey_ne (r : RedisStore) (k k' : String) (e : RedisEntry) (h : k ≠ k') :
    (r.setKey k' e).lookup k = r.lookup k := by
  unfold RedisStore.lookup RedisStore.setKey
  have hpa : (decide (k' = k)) = false := by
    simp [Ne.symm h]
  simp only [List.find?_cons, hpa]
  rw [find?_filter_of_imp]
  intro x hpx
  simp only [decide_eq_true_eq] at hpx ⊢
  intro hk
  exact h (hpx.symm.trans hk)

theorem lookup_delKey_self (r : RedisStore) (k : String) :
    (r.delKey k).lookup k = none := by
  unfold RedisStore.lookup RedisStore.delKey
  rw [List.find?_eq_none.mpr, Option.map_none']
  intro x hx hpx
  rcases List.mem_filter.mp hx with ⟨_, hq⟩
  simp only [decide_eq_true_eq] at hpx hq
  exact hq hpx

theorem lookup_delKey_ne (r : RedisStore) (k k' : String) (h : k ≠ k') :
    (r.delKey k').lookup k = r.lookup k := by
  unfold RedisStore.lookup RedisStore.delKey
  rw [find?_filter_of_imp]
  intro x hpx
  simp only [decide_eq_true_eq] at hpx ⊢
  intro hk
  exact h (hpx.symm.trans hk)

/-- C3: when the producer raises, `get_with_stampede_protection` — having
acquired the lock on a miss — stores no value under the key, deletes the lock
key before the exception propagates, and propagates the producer's failure:
after the call, the key reads as absent and no lock entry exists. -/
theorem stampede_producer_failure (key : String) (ttl lt fuel now : Nat)
    (r : RedisStore) (e : String)
    (hval : r.get now key = none)
    (hlock : r.get now (lockKeyOf key) = none) :
    ∃ r2, getWithStampedeProtection (.error e) key ttl lt (fuel + 1) r now
        = some (.error e, r2, now) ∧
      r2.get now key = none ∧
      r2.lookup (lockKeyOf key) = none := by
  have hne := key_ne_lockKeyOf key
  refine ⟨((r.setKey (lockKeyOf key) ⟨"locked", none⟩).setKey (lockKeyOf key)
      ⟨"locked", some (now + lt)⟩).delKey (lockKeyOf key), ?_, ?_, ?_⟩
  · rw [getWithStampedeProtection, hval]
    have hnx : r.setnx now (lockKeyOf key) "locked"
        = (true, r.setKey (lockKeyOf key) ⟨"locked", none⟩) := by
      unfold RedisStore.setnx; rw [hlock]
    simp only [hnx]
    have hexp : (r.setKey (lockKeyOf key) ⟨"locked", none⟩).expireKey now (lockKeyOf key) lt
        = (r.setKey (lockKeyOf key) ⟨"locked", none⟩).setKey (lockKeyOf key)
            ⟨"locked", some (now + lt)⟩ := by
      unfold RedisStore.expireKey RedisStore.get
      rw [lookup_setKey_self]
      rfl
    simp only [if_pos rfl, hexp]
    simp
  · unfold RedisStore.get
    rw [lookup_delKey_ne _ _ _ hne, lookup_setKey_ne _ _ _ _ hne,
      lookup_setKey_ne _ _ _ _ hne]
    unfold RedisStore.get at hval
    exact hval
  · exact lookup_delKey_self _ _

/-- C3 witness: the theorem applied to an empty store and a failing producer. -/
theorem stampede_producer_failure_witness :
    ∃ r2, getWithStampedeProtection (.error "boom") "k" 300 50 1 RedisStore.empty 0
        = some (.error "boom", r2, 0) ∧
      r2.get 0 "k" = none ∧
      r2.lookup (lockKeyOf "k") = none :=
  stampede_producer_failure "k" 300 50 0 0 RedisStore.empty "boom" (by decide) (by decide)

/-! ## Claim C6: lock creation is `setnx` followed by a separate `expire` -/

/-- C6 (counterexample): the lock record is created by `cache.setnx` alone,
which stores it with **no** expiry — immediately after the acquisition step
the lock key carries no expiry and is still present a million deciseconds
later, contrary to the claimed single atomic set-if-absent-with-expiry. -/
theorem setnx_leaves_lock_without_expiry :
    (RedisStore.empty.setnx 0 "k:lock" "locked").1 = true ∧
    (RedisStore.empty.setnx 0 "k:lock" "locked").2.lookup "k:lock"
        = some ⟨"locked", none⟩ ∧
    (RedisStore.empty.setnx 0 "k:lock" "locked").2.get 1000000 "k:lock"
        = some "locked" := by
  exact ⟨rfl, by decide, by decide⟩

/-- C6 (amended): lock creation is the two-step sequence of the source — an
atomic `setnx` that stores the lock with no expiry, then a separate `expire`
that attaches `lock_timeout`. After `setnx` alone the lock persists at every
future time (a holder stopping between the two steps wedges the key
forever); only once the second step has run does the lock expire, becoming
absent as soon as `now + lock_timeout` is reached. -/
theorem setnx_then_expire_two_steps (r : RedisStore) (now lt : Nat) (k v : String)
    (h : (r.setnx now k v).1 = true) :
    (r.setnx now k v).2.lookup k = some ⟨v, none⟩ ∧
    (∀ t, (r.setnx now k v).2.get t k = some v) ∧
    ((r.setnx now k v).2.expireKey now k lt).lookup k = some ⟨v, some (now + lt)⟩ ∧
    (∀ t, now + lt ≤ t → ((r.setnx now k v).2.expireKey now k lt).get t k = none) := by
  have hg : r.get now k = none := by
    by_contra hg
    rcases Option.ne_none_iff_exists'.mp hg with ⟨w, hw⟩
    unfold RedisStore.setnx at h
    rw [hw] at h
    exact Bool.false_ne_true h
  have hnx : r.setnx now k v = (true, r.setKey k ⟨v, none⟩) := by
    unfold RedisStore.setnx
    rw [hg]
  rw [hnx]
  have hl1 : (r.setKey k ⟨v, none⟩).lookup k = some ⟨v, none⟩ := lookup_setKey_self _ _ _
  have hget1 : ∀ t, (r.setKey k ⟨v, none⟩).get t k = some v := by
    intro t
    unfold RedisStore.get
    rw [hl1]
    rfl
  have hexp : (r.setKey k ⟨v, none⟩).expireKey now k lt
      = (r.setKey k ⟨v, none⟩).setKey k ⟨v, some (now + lt)⟩ := by
    unfold RedisStore.expireKey
    rw [hget1 now]
  refine ⟨hl1, hget1, ?_, ?_⟩
  · rw [hexp]
    exact lookup_setKey_self _ _ _
  · intro t ht
    rw [hexp]
    unfold RedisStore.get
    rw [lookup_setKey_self]
    have hlive : RedisEntry.live ⟨v, some (now + lt)⟩ t = false := by
      unfold RedisEntry.live
      simp [Nat.not_lt.mpr ht]
    simp only [hlive]
    simp

/-- C6 witness: the amended theorem applied to a fresh lock acquisition on the
empty store. -/
theorem setnx_then_expire_two_steps_witness :
    (RedisStore.empty.setnx 0 "p:lock" "locked").2.lookup "p:lock"
        = some ⟨"locked", none⟩ ∧
    (∀ t, (RedisStore.empty.setnx 0 "p:lock" "locked").2.get t "p:lock"
        = some "locked") ∧
    ((RedisStore.empty.setnx 0 "p:lock" "locked").2.expireKey 0 "p:lock" 50).lookup "p:lock"
        = some ⟨"locked", some 50⟩ ∧
    (∀ t, 0 + 50 ≤ t →
      ((RedisStore.empty.setnx 0 "p:lock" "locked").2.expireKey 0 "p:lock" 50).get t "p:lock"
        = none) :=
  setnx_then_expire_two_steps RedisStore.empty 0 50 "p:lock" "locked" rfl

/-! ## Cache-key encoding of the `redis_cache` decorator

`redis_cache.py` line 18 builds `cache_key = f"{key_prefix}:{str(args)}:{str(kwargs)}"`.
The embedding models Python argument values of the numeric and string kinds
the spec discusses, `str`/`repr` of those values, of the `args` tuple and of
the `kwargs` dict, and the final key. Strings are `List Char`. Python `repr`
of a string picks double quotes when the string contains a single quote and
no double quote, otherwise single quotes, escaping embedded single quotes
with a backslash in the both-quotes case; payload strings are restricted (by
hypotheses on the theorems) to printable characters without backslashes,
where this is the complete escaping behavior. Keyword names are Python
identifiers. Python dicts preserve insertion order, so `kwargs` is modelled
as the keyword/value list in the order supplied at the call site.
-/

inductive PyVal where
  | vint : Int → PyVal
  | vstr : List Char → PyVal
deriving DecidableEq, Repr

/-- Decimal digits of `n`, most significant first — `repr` of a nonnegative
Python int. -/
def pyNatChars (n : Nat) : List Char :=
  if n = 0 then ['0'] else ((Nat.digits 10 n).map Nat.digitChar).reverse

/-- `repr` of a Python int. -/
def pyIntChars : Int → List Char
  | .ofNat n => pyNatChars n
  | .negSucc m => '-' :: pyNatChars (m + 1)

/-- Backslash-escape a single quote (the escape `repr` applies inside a
single-quoted string). -/
def escSQchar (c : Char) : List Char := if c = '\'' then ['\\', '\''] else [c]

/-- `repr` of a Python string: double-quoted when it contains `'` but not
`"`; otherwise single-quoted, escaping embedded `'` (present only in the
both-quotes case). -/
def pyStrChars (s : List Char) : List Char :=
  if s.contains '\'' then
    if s.contains '"' then '\'' :: (s.flatMap escSQchar ++ ['\''])
    else '"' :: (s ++ ['"'])
  else '\'' :: (s ++ ['\''])

/-- `repr` of one argument value. -/
def pyValChars : PyVal → List Char
  | .vint i => pyIntChars i
  | .vstr s => pyStrChars s

/-- Join with `", "`, as Python renders tuple and dict elements. -/
def sepJoin : List (List Char) → List Char
  | [] => []
  | [x] => x
  | x :: y :: xs => x ++ ',' :: ' ' :: sepJoin (y :: xs)

/-- `str(args)` for the positional-argument tuple: `()`, `(v,)`, or
`(v1, ..., vn)`. -/
def pyTupleChars : List PyVal → List Char
  | [] => ['(', ')']
  | [v] => '(' :: (pyValChars v ++ [',', ')'])
  | v :: w :: vs => '(' :: (sepJoin ((v :: w :: vs).map pyValChars) ++ [')'])

/-- One `'name': value` dict item. -/
def pyKwChars (p : List Char × PyVal) : List Char :=
  '\'' :: (p.1 ++ '\'' :: ':' :: ' ' :: pyValChars p.2)

/-- `str(kwargs)` for the keyword-argument dict, in insertion order. -/
def pyDictChars : List (List Char × PyVal) → List Char
  | [] => ['{', '}']
  | p :: ps => '{' :: (sepJoin ((p :: ps).map pyKwChars) ++ ['}'])

/-- `f"{key_prefix}:{str(args)}:{str(kwargs)}"` — the decorator's cache key. -/
def cacheKeyChars (pref : List Char) (args : List PyVal)
    (kwargs : List (List Char × PyVal)) : List Char :=
  pref ++ ':' :: (pyTupleChars args ++ ':' :: pyDictChars kwargs)

/-- Modelled string payloads: printable characters, no backslash (Python
`repr` escapes backslashes and control characters; those escapes are outside
the model). -/
def goodChar (c : Char) : Prop := c ≠ '\\' ∧ 32 ≤ c.toNat

def goodStr (s : List Char) : Prop := ∀ c ∈ s, goodChar c

def goodVal : PyVal → Prop
  | .vint _ => True
  | .vstr s => goodStr s

/-- Characters of a Python identifier (keyword-argument names). -/
def identChar (c : Char) : Prop := c.isAlphanum = true ∨ c = '_'

def goodKw (p : List Char × PyVal) : Prop :=
  (∀ c ∈ p.1, identChar c) ∧ goodVal p.2

/-! ## Backward parser for the key encoding

The cache key is parsed from its right end (the left end begins with the
unconstrained `key_prefix`, so only the right end is structurally anchored):
the functions below consume the **reversed** character list. Injectivity of
`cacheKeyChars` follows from these parsers being functions together with the
round-trip lemmas proved below.
-/

/-- Scan the reversed interior of a single-quoted string up to its opening
quote; a quote preceded (in source order) by a backslash is content. -/
def bscanSQ : List Char → List Char → Option (List Char × List Char)
  | _, [] => none
  | acc, c :: rest =>
    if c = '\'' then
      if rest.head? = some '\\' then bscanSQ ('\'' :: acc) rest.tail
      else some (acc, rest)
    else bscanSQ (c :: acc) rest
termination_by _ s => s.length
decreasing_by
  · have h1 : rest.tail.length = rest.length - 1 := List.length_tail _
    simp only [List.length_cons]
    omega
  · simp only [List.length_cons]
    omega

/-- Scan the reversed interior of a double-quoted string up to its opening
quote. -/
def bscanDQ : List Char → List Char → Option (List Char × List Char)
  | _, [] => none
  | acc, c :: rest =>
    if c = '"' then some (acc, rest)
    else bscanDQ (c :: acc) rest

/-- Collect a reversed run of decimal digits (least significant first). -/
def bscanDigits : List Char → List Nat × List Char
  | [] => ([], [])
  | c :: rest =>
    if c.isDigit then
      let r := bscanDigits rest
      ((c.toNat - 48) :: r.1, r.2)
    else ([], c :: rest)

/-- Parse a reversed int literal (digits then an optional minus sign). -/
def bvalNum (s : List Char) : Option (PyVal × List Char) :=
  let d := bscanDigits s
  if d.1 = [] then none
  else if d.2.head? = some '-' then
    some (.vint (-(Nat.ofDigits 10 d.1 : Int)), d.2.tail)
  else
    some (.vint ((Nat.ofDigits 10 d.1 : Nat) : Int), d.2)

/-- Parse one reversed value (string or int). -/
def bval (s : List Char) : Option (PyVal × List Char) :=
  if s.head? = some '\'' then (bscanSQ [] s.tail).map (fun p => (.vstr p.1, p.2))
  else if s.head? = some '"' then (bscanDQ [] s.tail).map (fun p => (.vstr p.1, p.2))
  else bvalNum s

theorem bscanSQ_length : ∀ acc s p, bscanSQ acc s = some p → p.2.length < s.length := by
  intro acc s
  induction acc, s using bscanSQ.induct with
  | case1 acc =>
    intro p h
    rw [bscanSQ] at h
    cases h
  | case2 acc rest hbs ih =>
    intro p h
    rw [bscanSQ, if_pos rfl, if_pos hbs] at h
    have := ih p h
    have h1 : rest.tail.length = rest.length - 1 := List.length_tail _
    simp only [List.length_cons]
    omega
  | case3 acc rest hbs =>
    intro p h
    rw [bscanSQ, if_pos rfl, if_neg hbs] at h
    cases h
    simp
  | case4 acc c rest hq ih =>
    intro p h
    rw [bscanSQ, if_neg hq] at h
    have := ih p h
    simp only [List.length_cons]
    omega

theorem bscanDQ_length : ∀ acc s p, bscanDQ acc s = some p → p.2.length < s.length := by
  intro acc s
  induction acc, s using bscanDQ.induct with
  | case1 acc =>
    intro p h
    rw [bscanDQ] at h
    cases h
  | case2 acc rest =>
    intro p h
    rw [bscanDQ, if_pos rfl] at h
    cases h
    simp
  | case3 acc c rest hq ih =>
    intro p h
    rw [bscanDQ, if_neg hq] at h
    have := ih p h
    simp only [List.length_cons]
    omega

theorem bscanDigits_length : ∀ s, (bscanDigits s).2.length + (bscanDigits s).1.length
    = s.length := by
  intro s
  induction s with
  | nil => rfl
  | cons c rest ih =>
    rw [bscanDigits]
    by_cases h : c.isDigit
    · simp only [h, if_true, List.length_cons]
      omega
    · simp [h]

theorem bval_length : ∀ s p, bval s = some p → p.2.length < s.length := by
  intro s p h
  rw [bval] at h
  by_cases h1 : s.head? = some '\''
  · rw [if_pos h1] at h
    cases hs : bscanSQ [] s.tail with
    | none => rw [hs] at h; cases h
    | some q =>
      rw [hs] at h
      cases h
      have hlt := bscanSQ_length [] s.tail q hs
      cases s with
      | nil => cases h1
      | cons c rest => simp only [List.tail_cons, List.length_cons] at hlt ⊢; omega
  · rw [if_neg h1] at h
    by_cases h2 : s.head? = some '"'
    · rw [if_pos h2] at h
      cases hs : bscanDQ [] s.tail with
      | none => rw [hs] at h; cases h
      | some q =>
        rw [hs] at h
        cases h
        have hlt := bscanDQ_length [] s.tail q hs
        cases s with
        | nil => cases h2
        | cons c rest => simp only [List.tail_cons, List.length_cons] at hlt ⊢; omega
    · rw [if_neg h2, bvalNum] at h
      by_cases hd : (bscanDigits s).1 = []
      · simp only [hd, if_true] at h; cases h
      · have hlen := bscanDigits_length s
        have hpos : 1 ≤ (bscanDigits s).1.length := by
          cases hq : (bscanDigits s).1 with
          | nil => exact absurd hq hd
          | cons a l => simp
        simp only [hd, if_false] at h
        by_cases hm : (bscanDigits s).2.head? = some '-'
        · rw [if_pos hm] at h
          cases h
          show (bscanDigits s).2.tail.length < s.length
          have htail : (bscanDigits s).2.tail.length = (bscanDigits s).2.length - 1 :=
            List.length_tail _
          omega
        · rw [if_neg hm] at h
          cases h
          show (bscanDigits s).2.length < s.length
          omega

/-- Loop over the reversed elements of a multi-element tuple body, ending at
the opening parenthesis. -/
def btupLoop (acc : List PyVal) (s : List Char) : Option (List PyVal × List Char) :=
  match h : bval s with
  | none => none
  | some (v, r) =>
    if r.head? = some '(' then some (v :: acc, r.tail)
    else if r.head? = some ' ' ∧ r.tail.head? = some ',' then
      btupLoop (v :: acc) r.tail.tail
    else none
termination_by s.length
decreasing_by
  have hlt : r.length < s.length := bval_length s (v, r) h
  have h1 : r.tail.length = r.length - 1 := List.length_tail _
  have h2 : r.tail.tail.length = r.tail.length - 1 := List.length_tail _
  omega

/-- Parse a reversed `str(args)` tuple rendering. -/
def btup (s : List Char) : Option (List PyVal × List Char) :=
  if s.head? = some ')' then
    let rest := s.tail
    if rest.head? = some '(' then some ([], rest.tail)
    else if rest.head? = some ',' then
      match bval rest.tail with
      | some (v, r) => if r.head? = some '(' then some ([v], r.tail) else none
      | none => none
    else btupLoop [] rest
  else none

/-- Parse one reversed `'name': value` dict item (value first). -/
def bentry (s : List Char) : Option ((List Char × PyVal) × List Char) :=
  match bval s with
  | none => none
  | some (v, r) =>
    if r.head? = some ' ' ∧ r.tail.head? = some ':' ∧ r.tail.tail.head? = some '\'' then
      (bscanSQ [] r.tail.tail.tail).map (fun p => ((p.1, v), p.2))
    else none

theorem bentry_length : ∀ s p, bentry s = some p → p.2.length < s.length := by
  intro s p h
  rw [bentry] at h
  cases hv : bval s with
  | none => rw [hv] at h; cases h
  | some q =>
    rw [hv] at h
    rcases q with ⟨v, r⟩
    replace h : (if r.head? = some ' ' ∧ r.tail.head? = some ':' ∧
        r.tail.tail.head? = some '\'' then
        (bscanSQ [] r.tail.tail.tail).map (fun p => ((p.1, v), p.2)) else none) = some p := h
    by_cases hc : r.head? = some ' ' ∧ r.tail.head? = some ':' ∧ r.tail.tail.head? = some '\''
    · rw [if_pos hc] at h
      cases hs : bscanSQ [] r.tail.tail.tail with
      | none => rw [hs] at h; cases h
      | some q2 =>
        rw [hs] at h
        cases h
        have hlt : r.length < s.length := bval_length s (v, r) hv
        have hlt2 := bscanSQ_length [] r.tail.tail.tail q2 hs
        have h1 : r.tail.length = r.length - 1 := List.length_tail _
        have h2 : r.tail.tail.length = r.tail.length - 1 := List.length_tail _
        have h3 : r.tail.tail.tail.length = r.tail.tail.length - 1 := List.length_tail _
        show q2.2.length < s.length
        omega
    · rw [if_neg hc] at h
      cases h

/-- Loop over the reversed items of a non-empty dict body, ending at the
opening brace. -/
def bdictLoop (acc : List (List Char × PyVal)) (s : List Char) :
    Option (List (List Char × PyVal) × List Char) :=
  match h : bentry s with
  | none => none
  | some (e, r) =>
    if r.head? = some '{' then some (e :: acc, r.tail)
    else if r.head? = some ' ' ∧ r.tail.head? = some ',' then
      bdictLoop (e :: acc) r.tail.tail
    else none
termination_by s.length
decreasing_by
  have hlt : r.length < s.length := bentry_length s (e, r) h
  have h1 : r.tail.length = r.length - 1 := List.length_tail _
  have h2 : r.tail.tail.length = r.tail.length - 1 := List.length_tail _
  omega

/-- Parse a reversed `str(kwargs)` dict rendering. -/
def bdict (s : List Char) : Option (List (List Char × PyVal) × List Char) :=
  if s.head? = some '}' then
    if s.tail.head? = some '{' then some ([], s.tail.tail)
    else bdictLoop [] s.tail
  else none

/-! ## Round-trip: integer values -/

/-- Characters that may follow a reversed value without being mistaken for
part of it: not a backslash (escape look-back), not a digit, not a minus
sign. Every in-encoding follower (`:` separators, `(`/`{` openers, `, `
item separators) satisfies this. -/
def SafeHead (r : List Char) : Prop :=
  ∀ c, r.head? = some c → (¬ c = '\\' ∧ c.isDigit = false ∧ ¬ c = '-')

theorem digitChar_isDigit {d : Nat} (h : d < 10) : (Nat.digitChar d).isDigit = true := by
  interval_cases d <;> decide

theorem digitChar_toNat {d : Nat} (h : d < 10) : (Nat.digitChar d).toNat - 48 = d := by
  interval_cases d <;> decide

theorem digitChar_ne_sq {d : Nat} (h : d < 10) : ¬ Nat.digitChar d = '\'' := by
  interval_cases d <;> decide

theorem digitChar_ne_dq {d : Nat} (h : d < 10) : ¬ Nat.digitChar d = '"' := by
  interval_cases d <;> decide

theorem bscanDigits_stop (tail : List Char)
    (ht : ∀ c, tail.head? = some c → c.isDigit = false) :
    bscanDigits tail = ([], tail) := by
  cases tail with
  | nil => rfl
  | cons c r =>
    rw [bscanDigits, ht c rfl]
    simp

theorem bscanDigits_digits (ds : List Nat) (hds : ∀ d ∈ ds, d < 10) (tail : List Char)
    (ht : ∀ c, tail.head? = some c → c.isDigit = false) :
    bscanDigits (ds.map Nat.digitChar ++ tail) = (ds, tail) := by
  induction ds with
  | nil => simpa using bscanDigits_stop tail ht
  | cons d rest ih =>
    have hd : d < 10 := hds d (by simp)
    simp only [List.map_cons, List.cons_append]
    rw [bscanDigits, digitChar_isDigit hd]
    simp only [if_true]
    rw [ih (fun x hx => hds x (by simp [hx]))]
    simp [digitChar_toNat hd]

/-- The digit list `repr` renders for `n` (Python renders `0` as `"0"`). -/
def natDigitsFor (n : Nat) : List Nat := if n = 0 then [0] else Nat.digits 10 n

theorem natDigitsFor_lt (n : Nat) : ∀ d ∈ natDigitsFor n, d < 10 := by
  intro d hd
  rw [natDigitsFor] at hd
  by_cases h : n = 0
  · rw [if_pos h] at hd
    simp at hd
    omega
  · rw [if_neg h] at hd
    exact Nat.digits_lt_base (by omega) hd

theorem natDigitsFor_ne_nil (n : Nat) : ¬ natDigitsFor n = [] := by
  rw [natDigitsFor]
  by_cases h : n = 0
  · simp [h]
  · simp [h, Nat.digits_ne_nil_iff_ne_zero]

theorem ofDigits_natDigitsFor (n : Nat) : Nat.ofDigits 10 (natDigitsFor n) = n := by
  rw [natDigitsFor]
  by_cases h : n = 0
  · simp [h, Nat.ofDigits]
  · rw [if_neg h, Nat.ofDigits_digits]

theorem pyNatChars_reverse (n : Nat) :
    (pyNatChars n).reverse = (natDigitsFor n).map Nat.digitChar := by
  rw [pyNatChars, natDigitsFor]
  by_cases h : n = 0
  · subst h
    decide
  · rw [if_neg h, if_neg h, List.reverse_reverse]

theorem bvalNum_nat (n : Nat) (r : List Char) (hr : SafeHead r) :
    bvalNum ((pyNatChars n).reverse ++ r) = some (.vint (n : Int), r) := by
  have hstop : ∀ c, r.head? = some c → c.isDigit = false := fun c hc => ((hr c hc).2).1
  rw [pyNatChars_reverse]
  have hbs : bscanDigits ((natDigitsFor n).map Nat.digitChar ++ r) = (natDigitsFor n, r) :=
    bscanDigits_digits _ (natDigitsFor_lt n) r hstop
  rw [bvalNum]
  simp only [hbs]
  rw [if_neg (natDigitsFor_ne_nil n)]
  have hminus : ¬ r.head? = some '-' := by
    intro hm
    exact ((hr '-' hm).2).2 rfl
  rw [if_neg hminus, ofDigits_natDigitsFor]

theorem bvalNum_int (i : Int) (r : List Char) (hr : SafeHead r) :
    bvalNum ((pyIntChars i).reverse ++ r) = some (.vint i, r) := by
  cases i with
  | ofNat n => exact bvalNum_nat n r hr
  | negSucc m =>
    rw [pyIntChars, List.reverse_cons, List.append_assoc, List.singleton_append]
    have hstop : ∀ c, ('-' :: r).head? = some c → c.isDigit = false := by
      intro c hc
      cases hc
      decide
    rw [pyNatChars_reverse]
    have hbs := bscanDigits_digits (natDigitsFor (m + 1)) (natDigitsFor_lt _) ('-' :: r) hstop
    rw [bvalNum]
    simp only [hbs]
    rw [if_neg (natDigitsFor_ne_nil _)]
    have hcond : ('-' :: r).head? = some '-' := rfl
    rw [if_pos hcond]
    have hofz : (Nat.ofDigits (10 : Int) (natDigitsFor (m + 1))) = ((m + 1 : Nat) : Int) := by
      have h10 : ((10 : Nat) : Int) = (10 : Int) := by norm_cast
      rw [← h10, ← Nat.coe_int_ofDigits, ofDigits_natDigitsFor]
    rw [hofz]
    have h2 : ((m + 1 : Nat) : Int) = (m : Int) + 1 := by push_cast; ring
    rw [h2, ← Int.negSucc_eq]
    rfl

theorem pyIntChars_reverse_head (i : Int) :
    ∃ d rest, d < 10 ∧ (pyIntChars i).reverse = Nat.digitChar d :: rest := by
  have key : ∀ n : Nat, ∃ d rest, d < 10 ∧
      (pyNatChars n).reverse = Nat.digitChar d :: rest := by
    intro n
    rw [pyNatChars_reverse]
    cases hq : natDigitsFor n with
    | nil => exact absurd hq (natDigitsFor_ne_nil n)
    | cons d ds =>
      refine ⟨d, ds.map Nat.digitChar, ?_, by simp⟩
      exact natDigitsFor_lt n d (by rw [hq]; simp)
  cases i with
  | ofNat n => exact key n
  | negSucc m =>
    obtain ⟨d, rest, hd, hrev⟩ := key (m + 1)
    refine ⟨d, rest ++ ['-'], hd, ?_⟩
    rw [pyIntChars, List.reverse_cons, hrev]
    simp

theorem bval_int (i : Int) (r : List Char) (hr : SafeHead r) :
    bval ((pyIntChars i).reverse ++ r) = some (.vint i, r) := by
  obtain ⟨d, rest, hd, hrev⟩ := pyIntChars_reverse_head i
  rw [bval, hrev, List.cons_append]
  rw [if_neg (by simp [digitChar_ne_sq hd]), if_neg (by simp [digitChar_ne_dq hd])]
  rw [← List.cons_append, ← hrev]
  exact bvalNum_int i r hr

/-! ## Round-trip: string values -/

theorem flatMap_esc_id (s : List Char) (h : ∀ c ∈ s, ¬ c = '\'') :
    s.flatMap escSQchar = s := by
  induction s with
  | nil => rfl
  | cons c t ih =>
    rw [List.flatMap_cons, escSQchar, if_neg (h c (by simp)),
      ih (fun x hx => h x (by simp [hx]))]
    rfl

theorem bscanSQ_esc : ∀ s : List Char, (∀ c ∈ s, ¬ c = '\\') →
    ∀ acc r, ¬ r.head? = some '\\' →
      bscanSQ acc ((s.flatMap escSQchar).reverse ++ '\'' :: r) = some (s ++ acc, r) := by
  intro s
  induction s using List.reverseRecOn with
  | nil =>
    intro _ acc r hr
    show bscanSQ acc ('\'' :: r) = some (acc, r)
    rw [bscanSQ, if_pos rfl, if_neg hr]
  | append_singleton t c ih =>
    intro h acc r hr
    have hnb : ∀ x ∈ t, ¬ x = '\\' := fun x hx => h x (by simp [hx])
    rw [List.flatMap_append, List.flatMap_cons, List.flatMap_nil, List.append_nil,
      List.reverse_append]
    by_cases hc : c = '\''
    · subst hc
      show bscanSQ acc ('\'' :: '\\' ::
        ((t.flatMap escSQchar).reverse ++ '\'' :: r)) = some ((t ++ ['\'']) ++ acc, r)
      rw [bscanSQ, if_pos rfl]
      rw [if_pos (show (('\\' :: ((t.flatMap escSQchar).reverse ++ '\'' :: r)).head?
          = some '\\') from rfl)]
      show bscanSQ ('\'' :: acc) ((t.flatMap escSQchar).reverse ++ '\'' :: r)
        = some ((t ++ ['\'']) ++ acc, r)
      rw [ih hnb ('\'' :: acc) r hr]
      rw [← List.append_cons]
    · rw [escSQchar, if_neg hc]
      show bscanSQ acc (c :: ((t.flatMap escSQchar).reverse ++ '\'' :: r))
        = some ((t ++ [c]) ++ acc, r)
      rw [bscanSQ]
      rw [if_neg hc]
      rw [ih hnb (c :: acc) r hr]
      rw [← List.append_cons]

theorem bscanDQ_rt : ∀ s : List Char, (∀ c ∈ s, ¬ c = '"') →
    ∀ acc r, bscanDQ acc (s.reverse ++ '"' :: r) = some (s ++ acc, r) := by
  intro s
  induction s using List.reverseRecOn with
  | nil =>
    intro _ acc r
    show bscanDQ acc ('"' :: r) = some (acc, r)
    rw [bscanDQ, if_pos rfl]
  | append_singleton t c ih =>
    intro h acc r
    rw [List.reverse_append]
    show bscanDQ acc (c :: (t.reverse ++ '"' :: r)) = some ((t ++ [c]) ++ acc, r)
    rw [bscanDQ, if_neg (h c (by simp))]
    rw [ih (fun x hx => h x (by simp [hx])) (c :: acc) r]
    rw [← List.append_cons]

theorem bval_str (s : List Char) (hs : goodStr s) (r : List Char) (hr : SafeHead r) :
    bval ((pyStrChars s).reverse ++ r) = some (.vstr s, r) := by
  have hnb : ∀ c ∈ s, ¬ c = '\\' := fun c hc => (hs c hc).1
  have hrb : ¬ r.head? = some '\\' := by
    intro hm
    exact (hr '\\' hm).1 rfl
  rw [pyStrChars]
  by_cases h1 : s.contains '\''
  · rw [if_pos h1]
    by_cases h2 : s.contains '"'
    · rw [if_pos h2]
      rw [List.reverse_cons, List.reverse_append]
      show bval (('\'' :: (s.flatMap escSQchar).reverse ++ ['\'']) ++ r)
        = some (.vstr s, r)
      simp only [List.append_assoc, List.singleton_append, List.cons_append]
      rw [bval]
      simp only [List.head?_cons, List.tail_cons]
      rw [if_true]
      show (bscanSQ [] ((s.flatMap escSQchar).reverse ++ '\'' :: r)).map
          (fun p => (PyVal.vstr p.1, p.2)) = some (PyVal.vstr s, r)
      rw [bscanSQ_esc s hnb [] r hrb]
      simp
    · rw [if_neg h2]
      have hq : ∀ c ∈ s, ¬ c = '"' := by
        intro c hc he
        subst he
        simp at h2
        exact h2 hc
      rw [List.reverse_cons, List.reverse_append]
      show bval (('"' :: s.reverse ++ ['"']) ++ r) = some (.vstr s, r)
      simp only [List.append_assoc, List.singleton_append, List.cons_append]
      rw [bval]
      simp only [List.head?_cons, List.tail_cons]
      rw [if_neg (by decide), if_true]
      show (bscanDQ [] (s.reverse ++ '"' :: r)).map
          (fun p => (PyVal.vstr p.1, p.2)) = some (PyVal.vstr s, r)
      rw [bscanDQ_rt s hq [] r]
      simp
  · rw [if_neg h1]
    have hq : ∀ c ∈ s, ¬ c = '\'' := by
      intro c hc he
      subst he
      simp at h1
      exact h1 hc
    rw [List.reverse_cons, List.reverse_append]
    show bval (('\'' :: s.reverse ++ ['\'']) ++ r) = some (.vstr s, r)
    simp only [List.append_assoc, List.singleton_append, List.cons_append]
    rw [bval]
    simp only [List.head?_cons, List.tail_cons]
    rw [if_true]
    show (bscanSQ [] (s.reverse ++ '\'' :: r)).map
        (fun p => (PyVal.vstr p.1, p.2)) = some (PyVal.vstr s, r)
    have hrw : s.reverse = (s.flatMap escSQchar).reverse := by
      rw [flatMap_esc_id s hq]
    rw [hrw, bscanSQ_esc s hnb [] r hrb]
    simp

/-- Round-trip for one reversed value followed by a safe continuation. -/
theorem bval_rt (v : PyVal) (hv : goodVal v) (r : List Char) (hr : SafeHead r) :
    bval ((pyValChars v).reverse ++ r) = some (v, r) := by
  cases v with
  | vint i => exact bval_int i r hr
  | vstr s => exact bval_str s hv r hr

/-! ## Round-trip: the args tuple -/

theorem safeHead_cons (c : Char) (r : List Char) (h1 : ¬ c = '\\')
    (h2 : c.isDigit = false) (h3 : ¬ c = '-') : SafeHead (c :: r) := by
  intro x hx
  simp only [List.head?_cons, Option.some.injEq] at hx
  subst hx
  exact ⟨h1, h2, h3⟩

theorem sepJoin_append_single (xs : List (List Char)) (x : List Char) (h : ¬ xs = []) :
    sepJoin (xs ++ [x]) = sepJoin xs ++ ',' :: ' ' :: x := by
  induction xs with
  | nil => exact absurd rfl h
  | cons a t ih =>
    cases t with
    | nil => rfl
    | cons b t2 =>
      have hli : (a :: b :: t2) ++ [x] = a :: b :: (t2 ++ [x]) := by simp
      rw [hli, sepJoin]
      have hli2 : b :: (t2 ++ [x]) = (b :: t2) ++ [x] := by simp
      rw [hli2, ih (by simp)]
      show _ = sepJoin (a :: b :: t2) ++ ',' :: ' ' :: x
      rw [sepJoin]
      simp [List.append_assoc]

theorem pyStrChars_concat (s : List Char) :
    ∃ t q, (q = '\'' ∨ q = '"') ∧ pyStrChars s = t ++ [q] := by
  rw [pyStrChars]
  by_cases h1 : s.contains '\''
  · by_cases h2 : s.contains '"'
    · rw [if_pos h1, if_pos h2]
      exact ⟨'\'' :: s.flatMap escSQchar, '\'', Or.inl rfl, by simp⟩
    · rw [if_pos h1, if_neg h2]
      exact ⟨'"' :: s, '"', Or.inr rfl, by simp⟩
  · rw [if_neg h1]
    exact ⟨'\'' :: s, '\'', Or.inl rfl, by simp⟩

theorem pyValChars_reverse_head (v : PyVal) :
    ∃ c rest, (pyValChars v).reverse = c :: rest ∧
      (c.isDigit = true ∨ c = '\'' ∨ c = '"') := by
  cases v with
  | vint i =>
    obtain ⟨d, rest, hd, hrev⟩ := pyIntChars_reverse_head i
    exact ⟨_, rest, hrev, Or.inl (digitChar_isDigit hd)⟩
  | vstr s =>
    obtain ⟨t, q, hq, hs⟩ := pyStrChars_concat s
    refine ⟨q, t.reverse, ?_, ?_⟩
    · rw [pyValChars] at *
      rw [hs, List.reverse_append]
      simp
    · rcases hq with h | h
      · exact Or.inr (Or.inl h)
      · exact Or.inr (Or.inr h)

theorem sepJoin_reverse_head (vs : List PyVal) (h : ¬ vs = []) :
    ∃ c rest, (sepJoin (vs.map pyValChars)).reverse = c :: rest ∧
      (c.isDigit = true ∨ c = '\'' ∨ c = '"') := by
  rcases List.eq_nil_or_concat vs with h0 | ⟨L, b, rfl⟩
  · exact absurd h0 h
  · obtain ⟨c, rest2, hb, hc⟩ := pyValChars_reverse_head b
    simp only [List.concat_eq_append]
    by_cases hL : L = []
    · subst hL
      simp only [List.nil_append, List.map_cons, List.map_nil]
      exact ⟨c, rest2, by rw [show sepJoin [pyValChars b] = pyValChars b from rfl, hb], hc⟩
    · rw [List.map_append, List.map_cons, List.map_nil,
        sepJoin_append_single _ _ (by simp [hL])]
      rw [List.reverse_append]
      refine ⟨c, rest2 ++ ' ' :: ',' :: (sepJoin (L.map pyValChars)).reverse, ?_, hc⟩
      rw [show (',' :: ' ' :: pyValChars b).reverse
          = (pyValChars b).reverse ++ [' ', ','] from by simp, hb]
      simp

theorem btupLoop_step (acc : List PyVal) (s : List Char) (v : PyVal) (r : List Char)
    (hb : bval s = some (v, r)) :
    btupLoop acc s =
      if r.head? = some '(' then some (v :: acc, r.tail)
      else if r.head? = some ' ' ∧ r.tail.head? = some ',' then
        btupLoop (v :: acc) r.tail.tail
      else none := by
  rw [btupLoop]
  split
  · rename_i heq
    rw [hb] at heq
    cases heq
  · rename_i v2 r2 heq
    rw [hb] at heq
    injection heq with heq2
    injection heq2 with hv hr
    subst hv
    subst hr
    rfl

theorem btupLoop_rt : ∀ vs : List PyVal, ¬ vs = [] → (∀ v ∈ vs, goodVal v) →
    ∀ acc r, btupLoop acc ((sepJoin (vs.map pyValChars)).reverse ++ '(' :: r)
      = some (vs ++ acc, r) := by
  intro vs
  induction vs using List.reverseRecOn with
  | nil => intro h; exact absurd rfl h
  | append_singleton ws w ih =>
    intro _ hg acc r
    have hgw : goodVal w := hg w (by simp)
    by_cases hw : ws = []
    · subst hw
      simp only [List.nil_append, List.map_cons, List.map_nil]
      show btupLoop acc ((sepJoin [pyValChars w]).reverse ++ '(' :: r) = some ([w] ++ acc, r)
      rw [show sepJoin [pyValChars w] = pyValChars w from rfl]
      rw [btupLoop_step acc _ w ('(' :: r)
        (bval_rt w hgw ('(' :: r) (safeHead_cons '(' r (by decide) (by decide) (by decide)))]
      simp only [List.head?_cons, List.tail_cons, eq_self_iff_true, if_true]
      rfl
    · have hmap : ¬ ws.map pyValChars = [] := by simp [hw]
      rw [List.map_append, List.map_cons, List.map_nil,
        sepJoin_append_single _ _ hmap, List.reverse_append]
      rw [show (',' :: ' ' :: pyValChars w).reverse
          = (pyValChars w).reverse ++ [' ', ','] from by simp]
      simp only [List.append_assoc, List.cons_append, List.nil_append]
      rw [btupLoop_step acc _ w (' ' :: ',' :: ((sepJoin (ws.map pyValChars)).reverse ++ '(' :: r))
        (bval_rt w hgw _ (safeHead_cons ' ' _ (by decide) (by decide) (by decide)))]
      simp only [List.head?_cons, List.tail_cons]
      rw [if_neg (by decide)]
      rw [if_pos (⟨trivial, trivial⟩ : True ∧ True)]
      exact ih hw (fun v hv => hg v (by simp [hv])) (w :: acc) r

theorem btup_rt (a : List PyVal) (ha : ∀ v ∈ a, goodVal v) (r : List Char) :
    btup ((pyTupleChars a).reverse ++ r) = some (a, r) := by
  match a with
  | [] =>
    show btup ((['(', ')'] : List Char).reverse ++ r) = some ([], r)
    rw [show (['(', ')'] : List Char).reverse = [')', '('] from rfl]
    show btup (')' :: '(' :: r) = some ([], r)
    rw [btup]
    simp only [List.head?_cons, List.tail_cons, eq_self_iff_true, if_true]
  | [v] =>
    have hgv : goodVal v := ha v (by simp)
    show btup (('(' :: (pyValChars v ++ [',', ')'])).reverse ++ r) = some ([v], r)
    rw [List.reverse_cons, List.reverse_append,
      show (([',', ')'] : List Char)).reverse = [')', ','] from rfl]
    simp only [List.append_assoc, List.cons_append, List.nil_append, List.singleton_append]
    rw [btup]
    simp only [List.head?_cons, List.tail_cons, eq_self_iff_true, if_true]
    rw [if_neg (by decide)]
    rw [bval_rt v hgv ('(' :: r) (safeHead_cons '(' r (by decide) (by decide) (by decide))]
    simp only [List.head?_cons, List.tail_cons, eq_self_iff_true, if_true]
  | v :: w :: vs =>
    have hne : ¬ (v :: w :: vs) = ([] : List PyVal) := by simp
    obtain ⟨c, restS, hrev, hc⟩ := sepJoin_reverse_head (v :: w :: vs) hne
    show btup (('(' :: (sepJoin ((v :: w :: vs).map pyValChars) ++ [')'])).reverse ++ r)
      = some (v :: w :: vs, r)
    rw [List.reverse_cons, List.reverse_append,
      show (([')'] : List Char)).reverse = [')'] from rfl]
    simp only [List.append_assoc, List.cons_append, List.nil_append, List.singleton_append]
    rw [btup]
    simp only [List.head?_cons, List.tail_cons, eq_self_iff_true, if_true]
    have hcne1 : ¬ ((sepJoin ((v :: w :: vs).map pyValChars)).reverse ++ '(' :: r).head?
        = some '(' := by
      rw [hrev, List.cons_append, List.head?_cons]
      intro hx
      injection hx with hx2
      subst hx2
      rcases hc with h | h | h
      · exact absurd h (by decide)
      · exact absurd h (by decide)
      · exact absurd h (by decide)
    have hcne2 : ¬ ((sepJoin ((v :: w :: vs).map pyValChars)).reverse ++ '(' :: r).head?
        = some ',' := by
      rw [hrev, List.cons_append, List.head?_cons]
      intro hx
      injection hx with hx2
      subst hx2
      rcases hc with h | h | h
      · exact absurd h (by decide)
      · exact absurd h (by decide)
      · exact absurd h (by decide)
    rw [if_neg hcne1, if_neg hcne2]
    have := btupLoop_rt (v :: w :: vs) hne ha [] r
    rw [List.append_nil] at this
    exact this

/-! ## Round-trip: the kwargs dict -/

theorem identChar_ne_sq {c : Char} (h : identChar c) : ¬ c = '\'' := by
  intro he
  subst he
  rcases h with h | h
  · exact absurd h (by decide)
  · exact absurd h (by decide)

theorem identChar_ne_bs {c : Char} (h : identChar c) : ¬ c = '\\' := by
  intro he
  subst he
  rcases h with h | h
  · exact absurd h (by decide)
  · exact absurd h (by decide)

theorem bentry_rt (k : List Char) (v : PyVal) (hk : ∀ c ∈ k, identChar c)
    (hv : goodVal v) (r : List Char) (hr : SafeHead r) :
    bentry ((pyKwChars (k, v)).reverse ++ r) = some ((k, v), r) := by
  have hkq : ∀ c ∈ k, ¬ c = '\'' := fun c hc => identChar_ne_sq (hk c hc)
  have hkb : ∀ c ∈ k, ¬ c = '\\' := fun c hc => identChar_ne_bs (hk c hc)
  have hrb : ¬ r.head? = some '\\' := by
    intro hm
    exact (hr '\\' hm).1 rfl
  show bentry ((('\'' :: (k ++ '\'' :: ':' :: ' ' :: pyValChars v)).reverse) ++ r)
    = some ((k, v), r)
  rw [List.reverse_cons, List.reverse_append,
    show ('\'' :: ':' :: ' ' :: pyValChars v).reverse
      = (pyValChars v).reverse ++ [' ', ':', '\''] from by simp]
  simp only [List.append_assoc, List.cons_append, List.nil_append, List.singleton_append]
  rw [bentry]
  rw [bval_rt v hv _ (safeHead_cons ' ' _ (by decide) (by decide) (by decide))]
  simp only [List.head?_cons, List.tail_cons, eq_self_iff_true, and_self, if_true]
  have hkrw : k.reverse = (k.flatMap escSQchar).reverse := by
    rw [flatMap_esc_id k hkq]
  rw [hkrw, bscanSQ_esc k hkb [] r hrb]
  simp

theorem pyKwChars_reverse_head (p : List Char × PyVal) :
    ∃ c rest, (pyKwChars p).reverse = c :: rest ∧
      (c.isDigit = true ∨ c = '\'' ∨ c = '"') := by
  obtain ⟨c, rest2, hb, hc⟩ := pyValChars_reverse_head p.2
  refine ⟨c, rest2 ++ (' ' :: ':' :: '\'' :: p.1.reverse ++ ['\'']), ?_, hc⟩
  show ('\'' :: (p.1 ++ '\'' :: ':' :: ' ' :: pyValChars p.2)).reverse = _
  rw [List.reverse_cons, List.reverse_append,
    show ('\'' :: ':' :: ' ' :: pyValChars p.2).reverse
      = (pyValChars p.2).reverse ++ [' ', ':', '\''] from by simp, hb]
  simp

theorem sepJoinKw_reverse_head (ps : List (List Char × PyVal)) (h : ¬ ps = []) :
    ∃ c rest, (sepJoin (ps.map pyKwChars)).reverse = c :: rest ∧
      (c.isDigit = true ∨ c = '\'' ∨ c = '"') := by
  rcases List.eq_nil_or_concat ps with h0 | ⟨L, b, rfl⟩
  · exact absurd h0 h
  · obtain ⟨c, rest2, hb, hc⟩ := pyKwChars_reverse_head b
    simp only [List.concat_eq_append]
    by_cases hL : L = []
    · subst hL
      simp only [List.nil_append, List.map_cons, List.map_nil]
      exact ⟨c, rest2, by rw [show sepJoin [pyKwChars b] = pyKwChars b from rfl, hb], hc⟩
    · rw [List.map_append, List.map_cons, List.map_nil,
        sepJoin_append_single _ _ (by simp [hL])]
      rw [List.reverse_append]
      refine ⟨c, rest2 ++ ' ' :: ',' :: (sepJoin (L.map pyKwChars)).reverse, ?_, hc⟩
      rw [show (',' :: ' ' :: pyKwChars b).reverse
          = (pyKwChars b).reverse ++ [' ', ','] from by simp, hb]
      simp

theorem bdictLoop_step (acc : List (List Char × PyVal)) (s : List Char)
    (e : List Char × PyVal) (r : List Char) (hb : bentry s = some (e, r)) :
    bdictLoop acc s =
      if r.head? = some '{' then some (e :: acc, r.tail)
      else if r.head? = some ' ' ∧ r.tail.head? = some ',' then
        bdictLoop (e :: acc) r.tail.tail
      else none := by
  rw [bdictLoop]
  split
  · rename_i heq
    rw [hb] at heq
    cases heq
  · rename_i e2 r2 heq
    rw [hb] at heq
    injection heq with heq2
    injection heq2 with he hr
    subst he
    subst hr
    rfl

theorem bdictLoop_rt : ∀ ps : List (List Char × PyVal), ¬ ps = [] →
    (∀ p ∈ ps, goodKw p) →
    ∀ acc r, SafeHead r →
      bdictLoop acc ((sepJoin (ps.map pyKwChars)).reverse ++ '{' :: r)
        = some (ps ++ acc, r) := by
  intro ps
  induction ps using List.reverseRecOn with
  | nil => intro h; exact absurd rfl h
  | append_singleton ws w ih =>
    intro _ hg acc r hr
    have hgw : goodKw w := hg w (by simp)
    by_cases hw : ws = []
    · subst hw
      simp only [List.nil_append, List.map_cons, List.map_nil]
      show bdictLoop acc ((sepJoin [pyKwChars w]).reverse ++ '{' :: r) = some ([w] ++ acc, r)
      rw [show sepJoin [pyKwChars w] = pyKwChars w from rfl]
      rw [show w = (w.1, w.2) from rfl] at *
      rw [bdictLoop_step acc _ (w.1, w.2) ('{' :: r)
        (bentry_rt w.1 w.2 hgw.1 hgw.2 ('{' :: r)
          (safeHead_cons '{' r (by decide) (by decide) (by decide)))]
      simp only [List.head?_cons, List.tail_cons, eq_self_iff_true, if_true]
      rfl
    · have hmap : ¬ ws.map pyKwChars = [] := by simp [hw]
      rw [List.map_append, List.map_cons, List.map_nil,
        sepJoin_append_single _ _ hmap, List.reverse_append]
      rw [show (',' :: ' ' :: pyKwChars w).reverse
          = (pyKwChars w).reverse ++ [' ', ','] from by simp]
      simp only [List.append_assoc, List.cons_append, List.nil_append]
      rw [show w = (w.1, w.2) from rfl] at *
      rw [bdictLoop_step acc _ (w.1, w.2)
        (' ' :: ',' :: ((sepJoin (ws.map pyKwChars)).reverse ++ '{' :: r))
        (bentry_rt w.1 w.2 hgw.1 hgw.2 _
          (safeHead_cons ' ' _ (by decide) (by decide) (by decide)))]
      simp only [List.head?_cons, List.tail_cons]
      rw [if_neg (by decide)]
      rw [if_pos (⟨trivial, trivial⟩ : True ∧ True)]
      exact ih hw (fun p hp => hg p (by simp [hp])) ((w.1, w.2) :: acc) r hr

theorem bdict_rt (ps : List (List Char × PyVal)) (hp : ∀ p ∈ ps, goodKw p)
    (r : List Char) (hr : SafeHead r) :
    bdict ((pyDictChars ps).reverse ++ r) = some (ps, r) := by
  match ps with
  | [] =>
    show bdict ((['{', '}'] : List Char).reverse ++ r) = some ([], r)
    rw [show (['{', '}'] : List Char).reverse = ['}', '{'] from rfl]
    show bdict ('}' :: '{' :: r) = some ([], r)
    rw [bdict]
    simp only [List.head?_cons, List.tail_cons, eq_self_iff_true, if_true]
  | p :: ps2 =>
    obtain ⟨c, restS, hrev, hc⟩ := sepJoinKw_reverse_head (p :: ps2) (by simp)
    show bdict (('{' :: (sepJoin ((p :: ps2).map pyKwChars) ++ ['}'])).reverse ++ r)
      = some (p :: ps2, r)
    rw [List.reverse_cons, List.reverse_append,
      show ((['}'] : List Char)).reverse = ['}'] from rfl]
    simp only [List.append_assoc, List.cons_append, List.nil_append, List.singleton_append]
    rw [bdict]
    simp only [List.head?_cons, List.tail_cons, eq_self_iff_true, if_true]
    have hne : ¬ ((sepJoin ((p :: ps2).map pyKwChars)).reverse ++ '{' :: r).head?
        = some '{' := by
      rw [hrev, List.cons_append, List.head?_cons]
      intro hx
      injection hx with hx2
      subst hx2
      rcases hc with h | h | h
      · exact absurd h (by decide)
      · exact absurd h (by decide)
      · exact absurd h (by decide)
    rw [if_neg hne]
    have hloop := bdictLoop_rt (p :: ps2) (by simp) hp [] r hr
    rw [List.append_nil] at hloop
    exact hloop

/-! ## Injectivity of the cache-key encoding -/

def goodArgs (args : List PyVal) : Prop := ∀ v ∈ args, goodVal v

def goodKwargs (kw : List (List Char × PyVal)) : Prop := ∀ p ∈ kw, goodKw p

instance goodChar.dec (c : Char) : Decidable (goodChar c) := by
  unfold goodChar
  infer_instance

instance goodStr.dec (s : List Char) : Decidable (goodStr s) := by
  unfold goodStr
  infer_instance

instance goodVal.dec (v : PyVal) : Decidable (goodVal v) := by
  cases v with
  | vint i => exact isTrue trivial
  | vstr s =>
    unfold goodVal
    infer_instance

instance identChar.dec (c : Char) : Decidable (identChar c) := by
  unfold identChar
  infer_instance

instance goodKw.dec (p : List Char × PyVal) : Decidable (goodKw p) := by
  unfold goodKw
  infer_instance

instance goodArgs.dec (a : List PyVal) : Decidable (goodArgs a) := by
  unfold goodArgs
  infer_instance

instance goodKwargs.dec (k : List (List Char × PyVal)) : Decidable (goodKwargs k) := by
  unfold goodKwargs
  infer_instance

theorem safeHead_colon (x : List Char) : SafeHead (':' :: x) :=
  safeHead_cons ':' x (by decide) (by decide) (by decide)

theorem cacheKeyChars_inj
    (p1 p2 : List Char) (a1 a2 : List PyVal) (k1 k2 : List (List Char × PyVal))
    (ha1 : goodArgs a1) (ha2 : goodArgs a2) (hk1 : goodKwargs k1) (hk2 : goodKwargs k2)
    (h : cacheKeyChars p1 a1 k1 = cacheKeyChars p2 a2 k2) :
    p1 = p2 ∧ a1 = a2 ∧ k1 = k2 := by
  have hrev := congrArg List.reverse h
  rw [cacheKeyChars, cacheKeyChars] at hrev
  simp only [List.reverse_append, List.reverse_cons, List.append_assoc, List.cons_append,
    List.singleton_append, List.nil_append] at hrev
  have hd1 := bdict_rt k1 hk1 (':' :: ((pyTupleChars a1).reverse ++ ':' :: p1.reverse))
    (safeHead_colon _)
  have hd2 := bdict_rt k2 hk2 (':' :: ((pyTupleChars a2).reverse ++ ':' :: p2.reverse))
    (safeHead_colon _)
  have hbd := congrArg bdict hrev
  rw [hd1, hd2] at hbd
  injection hbd with hbd2
  injection hbd2 with hk hrest
  injection hrest with _ hrest2
  have ht1 := btup_rt a1 ha1 (':' :: p1.reverse)
  have ht2 := btup_rt a2 ha2 (':' :: p2.reverse)
  have hbt := congrArg btup hrest2
  rw [ht1, ht2] at hbt
  injection hbt with hbt2
  injection hbt2 with ha hrest3
  injection hrest3 with _ hrev2
  exact ⟨List.reverse_injective hrev2, ha, hk⟩

example : cacheKeyChars ['p'] [PyVal.vstr ['a']] []
    = ['p', ':', '(', '\'', 'a', '\'', ',', ')', ':', '\x7b', '\x7d'] := by decide

example : cacheKeyChars ['p'] [] [(['a'], PyVal.vstr ['x'])]
    = ['p', ':', '(', ')', ':', '\x7b', '\'', 'a', '\'', ':', ' ', '\'', 'x', '\'', '\x7d'] := by
  decide

example : pyStrChars ['d', 'o', 'n', '\'', 't'] = ['"', 'd', 'o', 'n', '\'', 't', '"'] := by
  decide

example : pyStrChars ['a', '\'', 'b', '"'] = ['\'', 'a', '\\', '\'', 'b', '"', '\''] := by
  decide

/-- C4: the key encoding `f"{key_prefix}:{str(args)}:{str(kwargs)}"` is
injective on the logical name and the ordered argument list: two calls with
different `key_prefix`es, or with the same `key_prefix` but different ordered
argument tuples, always receive different cache keys, for every choice of
keyword arguments on each side. Argument values range over the numeric and
string values the spec discusses (strings of printable characters without
backslashes, keyword names being identifiers). -/
theorem cacheKey_injective_on_name_and_args
    (p1 p2 : List Char) (a1 a2 : List PyVal) (k1 k2 : List (List Char × PyVal))
    (ha1 : goodArgs a1) (ha2 : goodArgs a2) (hk1 : goodKwargs k1) (hk2 : goodKwargs k2)
    (hne : ¬ p1 = p2 ∨ ¬ a1 = a2) :
    ¬ cacheKeyChars p1 a1 k1 = cacheKeyChars p2 a2 k2 := by
  intro h
  obtain ⟨hp, ha, _⟩ := cacheKeyChars_inj p1 p2 a1 a2 k1 k2 ha1 ha2 hk1 hk2 h
  rcases hne with hne | hne
  · exact hne hp
  · exact hne ha

/-- C4 witness: two concrete calls differing in the argument list receive
different keys. -/
theorem cacheKey_injective_on_name_and_args_witness :
    ¬ cacheKeyChars ['n'] [PyVal.vstr ['a']] [] = cacheKeyChars ['n'] [PyVal.vstr ['b']] [] :=
  cacheKey_injective_on_name_and_args ['n'] ['n'] [PyVal.vstr ['a']] [PyVal.vstr ['b']] [] []
    (by decide) (by decide) (by decide) (by decide) (Or.inr (by decide))

/-- C8 (counterexample): the same keyword-argument set supplied in two
different orders produces two different cache keys — `str(kwargs)` follows
the dict's insertion order, which is the call-site supply order, so the
encoding is not stable across reorderings of the unordered keyword set. -/
theorem cacheKey_kwarg_order_dependent :
    ¬ cacheKeyChars ['p'] [] [(['a'], PyVal.vstr ['x']), (['b'], PyVal.vstr ['y'])]
      = cacheKeyChars ['p'] [] [(['b'], PyVal.vstr ['y']), (['a'], PyVal.vstr ['x'])] := by
  decide

/-- C8 (amended): the encoding is a pure function of the logical name, the
ordered argument tuple, and the keyword-argument sequence in supply order —
repeated calls with the identical triple give the identical key — but it is
injective in the keyword sequence: any two different keyword sequences, in
particular the same keyword set supplied in different orders, give different
keys rather than the same key. -/
theorem cacheKey_kwargs_order_sensitive
    (p : List Char) (a : List PyVal) (k1 k2 : List (List Char × PyVal))
    (ha : goodArgs a) (hk1 : goodKwargs k1) (hk2 : goodKwargs k2)
    (hne : ¬ k1 = k2) :
    ¬ cacheKeyChars p a k1 = cacheKeyChars p a k2 := by
  intro h
  exact hne (cacheKeyChars_inj p p a a k1 k2 ha ha hk1 hk2 h).2.2

/-- C8 witness: two-keyword set supplied in swapped orders, with string
values, yields different keys. -/
theorem cacheKey_kwargs_order_sensitive_witness :
    ¬ cacheKeyChars ['q'] [] [(['u'], PyVal.vstr ['1']), (['v'], PyVal.vstr ['2'])]
      = cacheKeyChars ['q'] [] [(['v'], PyVal.vstr ['2']), (['u'], PyVal.vstr ['1'])] :=
  cacheKey_kwargs_order_sensitive ['q'] [] _ _ (by decide) (by decide) (by decide) (by decide)
